import Mathlib

/-!
Shallow embedding of `src/zcash/src/private_key.rs` (crate `wagyu`, Zcash
private keys in Wallet Import Format), together with models of the external
collaborators the file calls (base58 codec, double-SHA256 checksum, network
prefix table, secp256k1 secret-key validation), and proofs of the claims
about the WIF codec.
-/

namespace Wagyu

/-! ## Positional digits (used by the base58 codec model)

`natToDigits b n` is the big-endian base-`b` digit string of `n`, with no
leading zero digit (and `[]` for `n = 0`).  It is implemented with
structural recursion on a fuel argument so that it evaluates inside the
kernel; `fuel = n` always suffices. -/

def natToDigitsAux (b : Nat) : Nat → Nat → List Nat
  | 0, _ => []
  | _ + 1, 0 => []
  | fuel + 1, n + 1 => natToDigitsAux b fuel ((n + 1) / b) ++ [(n + 1) % b]

def natToDigits (b n : Nat) : List Nat :=
  natToDigitsAux b n n

/-- Big-endian evaluation of a digit string in base `b`. -/
def fromDigits (b : Nat) (l : List Nat) : Nat :=
  l.foldl (fun acc d => acc * b + d) 0

theorem natToDigitsAux_fuel_irrel (b : Nat) (hb : 2 ≤ b) :
    ∀ n fuel fuel', n ≤ fuel → n ≤ fuel' →
      natToDigitsAux b fuel n = natToDigitsAux b fuel' n := by
  intro n
  induction n using Nat.strong_induction_on with
  | _ n ih =>
    intro fuel fuel' hf hf'
    match n, fuel, fuel' with
    | 0, 0, 0 => rfl
    | 0, 0, _ + 1 => rfl
    | 0, _ + 1, 0 => rfl
    | 0, _ + 1, _ + 1 => rfl
    | m + 1, f + 1, f' + 1 =>
      simp only [natToDigitsAux]
      have hdiv : (m + 1) / b < m + 1 :=
        Nat.div_lt_self (Nat.succ_pos m) hb
      have h1 : (m + 1) / b ≤ f := Nat.le_of_lt_succ (Nat.lt_of_lt_of_le hdiv hf)
      have h2 : (m + 1) / b ≤ f' := Nat.le_of_lt_succ (Nat.lt_of_lt_of_le hdiv hf')
      rw [ih ((m + 1) / b) hdiv f f' h1 h2]

theorem natToDigits_zero (b : Nat) : natToDigits b 0 = [] := rfl

theorem natToDigits_succ (b : Nat) (hb : 2 ≤ b) (n : Nat) (hn : 0 < n) :
    natToDigits b n = natToDigits b (n / b) ++ [n % b] := by
  obtain ⟨m, rfl⟩ := Nat.exists_eq_add_of_lt hn
  simp only [natToDigits, Nat.zero_add]
  show natToDigitsAux b (m + 1) (m + 1) = _
  simp only [natToDigitsAux]
  have hdiv : (m + 1) / b < m + 1 := Nat.div_lt_self (Nat.succ_pos m) hb
  rw [natToDigitsAux_fuel_irrel b hb ((m + 1) / b) m ((m + 1) / b)
    (Nat.le_of_lt_succ hdiv) (Nat.le_refl _)]

theorem fromDigits_append (b : Nat) (l₁ l₂ : List Nat) :
    fromDigits b (l₁ ++ l₂) = (l₂.foldl (fun acc d => acc * b + d) (fromDigits b l₁)) := by
  simp [fromDigits, List.foldl_append]

theorem fromDigits_append_singleton (b : Nat) (l : List Nat) (d : Nat) :
    fromDigits b (l ++ [d]) = fromDigits b l * b + d := by
  simp [fromDigits_append, List.foldl]

theorem fromDigits_natToDigits (b : Nat) (hb : 2 ≤ b) (n : Nat) :
    fromDigits b (natToDigits b n) = n := by
  induction n using Nat.strong_induction_on with
  | _ n ih =>
    rcases Nat.eq_zero_or_pos n with h0 | hpos
    · subst h0; rfl
    · rw [natToDigits_succ b hb n hpos, fromDigits_append_singleton,
        ih (n / b) (Nat.div_lt_self hpos hb)]
      rw [Nat.mul_comm]
      exact Nat.div_add_mod n b

theorem foldl_le (b : Nat) (hb : 1 ≤ b) :
    ∀ (l : List Nat) (acc : Nat), acc ≤ l.foldl (fun acc d => acc * b + d) acc := by
  intro l
  induction l with
  | nil => intro acc; exact Nat.le_refl acc
  | cons x xs ih =>
    intro acc
    calc acc ≤ acc * b + x := by
          calc acc = acc * 1 := (Nat.mul_one acc).symm
          _ ≤ acc * b := Nat.mul_le_mul_left acc hb
          _ ≤ acc * b + x := Nat.le_add_right _ _
    _ ≤ _ := ih (acc * b + x)

theorem fromDigits_pos (b : Nat) (hb : 1 ≤ b) (h : Nat) (t : List Nat) (hh : h ≠ 0) :
    0 < fromDigits b (h :: t) := by
  have : fromDigits b (h :: t) = t.foldl (fun acc d => acc * b + d) h := by
    simp [fromDigits, List.foldl]
  rw [this]
  exact Nat.lt_of_lt_of_le (Nat.pos_of_ne_zero hh) (foldl_le b hb t h)

theorem natToDigits_fromDigits (b : Nat) (hb : 2 ≤ b) :
    ∀ (l : List Nat), (∀ d ∈ l, d < b) → (∀ h t, l = h :: t → h ≠ 0) →
      natToDigits b (fromDigits b l) = l := by
  intro l
  induction l using List.reverseRecOn with
  | nil => intro _ _; rfl
  | append_singleton ds d ih =>
    intro hlt hhead
    have hd : d < b := hlt d (List.mem_append_right ds (List.mem_singleton_self d))
    rw [fromDigits_append_singleton]
    match ds, hhead with
    | [], hhead =>
      have hd0 : d ≠ 0 := hhead d [] rfl
      show natToDigits b (fromDigits b [] * b + d) = [d]
      have : fromDigits b [] * b + d = d := by simp [fromDigits]
      rw [this, natToDigits_succ b hb d (Nat.pos_of_ne_zero hd0),
        Nat.div_eq_of_lt hd, Nat.mod_eq_of_lt hd, natToDigits_zero, List.nil_append]
    | h :: t, hhead =>
      have hh0 : h ≠ 0 := hhead h (t ++ [d]) rfl
      have hm : 0 < fromDigits b (h :: t) := fromDigits_pos b (Nat.le_of_succ_le hb) h t hh0
      set m := fromDigits b (h :: t) with hmdef
      have hpos : 0 < m * b + d :=
        Nat.lt_of_lt_of_le (Nat.lt_of_lt_of_le hm (Nat.le_mul_of_pos_right m
          (Nat.lt_of_lt_of_le Nat.zero_lt_two hb))) (Nat.le_add_right _ _)
      rw [natToDigits_succ b hb (m * b + d) hpos]
      have hdiv : (m * b + d) / b = m := by
        rw [Nat.add_comm, Nat.add_mul_div_right d m (Nat.lt_of_lt_of_le Nat.zero_lt_two hb),
          Nat.div_eq_of_lt hd, Nat.zero_add]
      have hmod : (m * b + d) % b = d := by
        rw [Nat.add_comm, Nat.add_mul_mod_self_right, Nat.mod_eq_of_lt hd]
      rw [hdiv, hmod, ih (fun x hx => hlt x (List.mem_append_left [d] hx))
        (fun x xs hxs => by rw [hxs] at hhead; exact hhead x (xs ++ [d]) rfl)]

theorem natToDigits_digit_lt (b : Nat) (hb : 2 ≤ b) (n : Nat) :
    ∀ d ∈ natToDigits b n, d < b := by
  induction n using Nat.strong_induction_on with
  | _ n ih =>
    rcases Nat.eq_zero_or_pos n with h0 | hpos
    · subst h0; intro d hd; simp [natToDigits_zero] at hd
    · rw [natToDigits_succ b hb n hpos]
      intro d hd
      rcases List.mem_append.mp hd with h | h
      · exact ih (n / b) (Nat.div_lt_self hpos hb) d h
      · rw [List.mem_singleton.mp h]
        exact Nat.mod_lt n (Nat.lt_of_lt_of_le Nat.zero_lt_two hb)

theorem natToDigits_ne_nil (b : Nat) (hb : 2 ≤ b) (n : Nat) (hn : 0 < n) :
    natToDigits b n ≠ [] := by
  rw [natToDigits_succ b hb n hn]
  simp

theorem natToDigits_head_ne_zero (b : Nat) (hb : 2 ≤ b) (n : Nat) :
    ∀ h t, natToDigits b n = h :: t → h ≠ 0 := by
  induction n using Nat.strong_induction_on with
  | _ n ih =>
    intro h t heq
    rcases Nat.eq_zero_or_pos n with h0 | hpos
    · subst h0; simp [natToDigits_zero] at heq
    · rw [natToDigits_succ b hb n hpos] at heq
      rcases Nat.eq_zero_or_pos (n / b) with hq0 | hqpos
      · rw [hq0, natToDigits_zero, List.nil_append] at heq
        have hnb : n < b := by
          by_contra hge
          exact absurd (Nat.div_pos (Nat.le_of_not_lt hge)
            (Nat.lt_of_lt_of_le Nat.zero_lt_two hb)) (by rw [hq0]; exact Nat.lt_irrefl 0)
        have : h = n % b := (List.cons.injEq h t (n % b) []).mp heq.symm |>.1
        rw [this, Nat.mod_eq_of_lt hnb]
        exact Nat.pos_iff_ne_zero.mp hpos
      · obtain ⟨h', t', ht'⟩ := List.exists_cons_of_ne_nil
          (natToDigits_ne_nil b hb (n / b) hqpos)
        rw [ht', List.cons_append] at heq
        have : h = h' := ((List.cons.injEq h t h' (t' ++ [n % b])).mp heq.symm).1
        rw [this]
        exact ih (n / b) (Nat.div_lt_self hpos hb) h' t' ht'

theorem fromDigits_replicate_zero_append (b : Nat) (z : Nat) (l : List Nat) :
    fromDigits b (List.replicate z 0 ++ l) = fromDigits b l := by
  induction z with
  | zero => rfl
  | succ k ih =>
    have h0 : ∀ xs : List Nat, fromDigits b (0 :: xs) = fromDigits b xs := by
      intro xs
      simp [fromDigits, List.foldl_cons]
    simp only [List.replicate_succ, List.cons_append, h0, ih]

/-! ## SHA-256

Modelled from the spec: the repository's `model::crypto::checksum` (the
"Checksum Function" collaborator, not under `src/`) is the first 4 bytes of
"the double application of the designated cryptographic hash over the
payload", i.e. double SHA-256; the concrete WIF test vectors pin the hash
down to SHA-256 (FIPS 180-4).  Bytes are `Nat < 256`, words `Nat < 2^32`,
arithmetic is explicit `% 2^32`. -/

def M32 : Nat := 4294967296

def rotr32 (n x : Nat) : Nat := ((x >>> n) ||| (x <<< (32 - n))) % M32

def bsig0 (x : Nat) : Nat := rotr32 2 x ^^^ rotr32 13 x ^^^ rotr32 22 x

def bsig1 (x : Nat) : Nat := rotr32 6 x ^^^ rotr32 11 x ^^^ rotr32 25 x

def ssig0 (x : Nat) : Nat := rotr32 7 x ^^^ rotr32 18 x ^^^ (x >>> 3)

def ssig1 (x : Nat) : Nat := rotr32 17 x ^^^ rotr32 19 x ^^^ (x >>> 10)

def chf (x y z : Nat) : Nat := (x &&& y) ^^^ ((x ^^^ 4294967295) &&& z)

def majf (x y z : Nat) : Nat := (x &&& y) ^^^ (x &&& z) ^^^ (y &&& z)

def K256 : List Nat :=
  [1116352408, 1899447441, 3049323471, 3921009573,
   961987163, 1508970993, 2453635748, 2870763221,
   3624381080, 310598401, 607225278, 1426881987,
   1925078388, 2162078206, 2614888103, 3248222580,
   3835390401, 4022224774, 264347078, 604807628,
   770255983, 1249150122, 1555081692, 1996064986,
   2554220882, 2821834349, 2952996808, 3210313671,
   3336571891, 3584528711, 113926993, 338241895,
   666307205, 773529912, 1294757372, 1396182291,
   1695183700, 1986661051, 2177026350, 2456956037,
   2730485921, 2820302411, 3259730800, 3345764771,
   3516065817, 3600352804, 4094571909, 275423344,
   430227734, 506948616, 659060556, 883997877,
   958139571, 1322822218, 1537002063, 1747873779,
   1955562222, 2024104815, 2227730452, 2361852424,
   2428436474, 2756734187, 3204031479, 3329325298]

/-- The eight 32-bit words of a SHA-256 hash state. -/
structure Hash8 where
  ha : Nat
  hb : Nat
  hc : Nat
  hd : Nat
  he : Nat
  hf : Nat
  hg : Nat
  hh : Nat
deriving DecidableEq, Repr

def sha256Init : Hash8 :=
  ⟨1779033703, 3144134277, 1013904242, 2773480762,
   1359893119, 2600822924, 528734635, 1541459225⟩

/-- Big-endian byte string of `n`, padded or truncated to `k` bytes. -/
def toBytesBE (k n : Nat) : List Nat :=
  (List.range k).map (fun i => (n >>> (8 * (k - 1 - i))) % 256)

/-- Number of `0x00` padding bytes between `0x80` and the length field. -/
def padZeroCount (len : Nat) : Nat := (120 - (len + 1) % 64) % 64

/-- SHA-256 message padding of a byte string. -/
def shaPad (msg : List Nat) : List Nat :=
  msg ++ [128] ++ List.replicate (padZeroCount msg.length) 0 ++ toBytesBE 8 (msg.length * 8)

/-- Group a byte string into big-endian 32-bit words (dropping a ragged tail,
which never occurs on padded input). -/
def bytesToWords : List Nat → List Nat
  | b0 :: b1 :: b2 :: b3 :: rest => (((b0 * 256 + b1) * 256 + b2) * 256 + b3) :: bytesToWords rest
  | _ => []

/-- Group a word string into 16-word blocks (dropping a ragged tail). -/
def toBlocks : List Nat → List (List Nat)
  | w0 :: w1 :: w2 :: w3 :: w4 :: w5 :: w6 :: w7 ::
    w8 :: w9 :: w10 :: w11 :: w12 :: w13 :: w14 :: w15 :: rest =>
      [w0, w1, w2, w3, w4, w5, w6, w7, w8, w9, w10, w11, w12, w13, w14, w15] :: toBlocks rest
  | _ => []

/-- Append the next word of the SHA-256 message schedule. -/
def scheduleStep (acc : List Nat) : List Nat :=
  let n := acc.length
  let g := fun i => acc.getD (n - i) 0
  acc ++ [(ssig1 (g 2) + g 7 + ssig0 (g 15) + g 16) % M32]

def scheduleAux : Nat → List Nat → List Nat
  | 0, acc => acc
  | k + 1, acc => scheduleAux k (scheduleStep acc)

/-- The 64-word message schedule of a 16-word block. -/
def schedule (block : List Nat) : List Nat := scheduleAux 48 block

/-- One SHA-256 compression round. -/
def sha256Round (st : Hash8) (kw : Nat × Nat) : Hash8 :=
  let t1 := (st.hh + bsig1 st.he + chf st.he st.hf st.hg + kw.1 + kw.2) % M32
  let t2 := (bsig0 st.ha + majf st.ha st.hb st.hc) % M32
  ⟨(t1 + t2) % M32, st.ha, st.hb, st.hc, (st.hd + t1) % M32, st.he, st.hf, st.hg⟩

/-- The SHA-256 compression function on one 16-word block. -/
def sha256Compress (st : Hash8) (block : List Nat) : Hash8 :=
  let fin := (K256.zip (schedule block)).foldl sha256Round st
  ⟨(st.ha + fin.ha) % M32, (st.hb + fin.hb) % M32, (st.hc + fin.hc) % M32,
   (st.hd + fin.hd) % M32, (st.he + fin.he) % M32, (st.hf + fin.hf) % M32,
   (st.hg + fin.hg) % M32, (st.hh + fin.hh) % M32⟩

/-- Big-endian bytes of one 32-bit word. -/
def wordBytesBE (w : Nat) : List Nat :=
  [(w >>> 24) % 256, (w >>> 16) % 256, (w >>> 8) % 256, w % 256]

/-- SHA-256 of a byte string, as a 32-byte string. -/
def sha256 (msg : List Nat) : List Nat :=
  let fin := (toBlocks (bytesToWords (shaPad msg))).foldl sha256Compress sha256Init
  wordBytesBE fin.ha ++ wordBytesBE fin.hb ++ wordBytesBE fin.hc ++ wordBytesBE fin.hd ++
  wordBytesBE fin.he ++ wordBytesBE fin.hf ++ wordBytesBE fin.hg ++ wordBytesBE fin.hh

/-- Modelled from the spec: `model::crypto::checksum` (not under `src/`),
"first 4 bytes of the double application of the designated cryptographic
hash over the payload"; the function returns the full 32-byte double-SHA256
digest and callers take the first 4 bytes. -/
def checksum (x : List Nat) : List Nat := sha256 (sha256 x)

theorem sha256_length (msg : List Nat) : (sha256 msg).length = 32 := by
  simp [sha256, wordBytesBE]

theorem sha256_byte_lt (msg : List Nat) : ∀ x ∈ sha256 msg, x < 256 := by
  intro x hx
  simp only [sha256, wordBytesBE, List.mem_append, List.mem_cons,
    List.not_mem_nil, or_false] at hx
  omega

theorem checksum_length (x : List Nat) : (checksum x).length = 32 :=
  sha256_length _

theorem checksum_byte_lt (x : List Nat) : ∀ y ∈ checksum x, y < 256 :=
  sha256_byte_lt _

/-! ## Base58 codec

Modelled from the spec: the "Base58 Codec" collaborator (the `base58` crate,
not under `src/`): `encode(bytes) -> string`, `decode(string) -> bytes`,
"fails on out-of-alphabet characters"; standard Bitcoin base58 with the
leading-zero-byte ↔ leading-`'1'` convention. -/

def b58Alphabet : List Char :=
  "123456789ABCDEFGHJKLMNPQRSTUVWXYZabcdefghijkmnopqrstuvwxyz".toList

/-- The base58 digit character of a digit `d < 58`. -/
def b58Char (d : Nat) : Char := b58Alphabet.getD d '1'

def charIndexAux (c : Char) : List Char → Nat → Option Nat
  | [], _ => none
  | a :: rest, i => if a == c then some i else charIndexAux c rest (i + 1)

/-- The digit value of a base58 character, or `none` if out of alphabet. -/
def b58Index (c : Char) : Option Nat := charIndexAux c b58Alphabet 0

/-- Digit values of a character string; `none` if any character is out of
the base58 alphabet. -/
def b58Indices : List Char → Option (List Nat)
  | [] => some []
  | c :: cs =>
    match b58Index c, b58Indices cs with
    | some i, some is => some (i :: is)
    | _, _ => none

def base58_encode (l : List Nat) : String :=
  let z := (l.takeWhile (fun b => b == 0)).length
  ⟨List.replicate z '1' ++ (natToDigits 58 (fromDigits 256 l)).map b58Char⟩

def base58_decode (s : String) : Option (List Nat) :=
  (b58Indices s.toList).map (fun idxs =>
    List.replicate ((s.toList.takeWhile (fun c => c == '1')).length) 0 ++
      natToDigits 256 (fromDigits 58 idxs))

theorem dropWhile_head_false {α : Type} (p : α → Bool) :
    ∀ (l : List α) (h : α) (t : List α), l.dropWhile p = h :: t → p h = false := by
  intro l
  induction l with
  | nil => intro h t ht; simp [List.dropWhile] at ht
  | cons a as ih =>
    intro h t ht
    by_cases hpa : p a = true
    · rw [List.dropWhile_cons_of_pos hpa] at ht
      exact ih h t ht
    · rw [List.dropWhile_cons_of_neg hpa] at ht
      have : a = h := ((List.cons.injEq a as h t).mp ht).1
      rw [← this]
      exact Bool.eq_false_iff.mpr hpa

theorem b58Indices_append (l₁ l₂ : List Char) (i₁ i₂ : List Nat)
    (h₁ : b58Indices l₁ = some i₁) (h₂ : b58Indices l₂ = some i₂) :
    b58Indices (l₁ ++ l₂) = some (i₁ ++ i₂) := by
  induction l₁ generalizing i₁ with
  | nil =>
    simp only [b58Indices] at h₁
    rw [← (Option.some.injEq _ _).mp h₁]
    simpa using h₂
  | cons c cs ih =>
    simp only [List.cons_append, b58Indices] at h₁ ⊢
    cases hidx : b58Index c with
    | none => rw [hidx] at h₁; simp at h₁
    | some i =>
      cases hrest : b58Indices cs with
      | none => rw [hidx, hrest] at h₁; simp at h₁
      | some is =>
        rw [hidx, hrest] at h₁
        simp only [Option.some.injEq] at h₁
        rw [List.append_eq, ih is hrest]
        simp only [Option.some.injEq]
        rw [← h₁]
        simp

theorem b58Indices_replicate_one (z : Nat) :
    b58Indices (List.replicate z '1') = some (List.replicate z 0) := by
  induction z with
  | zero => rfl
  | succ k ih =>
    simp only [List.replicate_succ, b58Indices, ih]
    rfl

theorem b58Index_b58Char : ∀ d, d < 58 → b58Index (b58Char d) = some d := by
  decide

theorem b58Indices_map_b58Char (ds : List Nat) (h : ∀ d ∈ ds, d < 58) :
    b58Indices (ds.map b58Char) = some ds := by
  induction ds with
  | nil => rfl
  | cons d rest ih =>
    simp only [List.map_cons, b58Indices]
    rw [b58Index_b58Char d (h d (List.mem_cons_self d rest)),
      ih (fun x hx => h x (List.mem_cons_of_mem d hx))]

theorem takeWhile_replicate_append {α : Type} (p : α → Bool) (a : α) (ha : p a = true)
    (z : Nat) (l : List α) :
    (List.replicate z a ++ l).takeWhile p = List.replicate z a ++ l.takeWhile p := by
  induction z with
  | zero => simp
  | succ k ih =>
    simp only [List.replicate_succ, List.cons_append, List.takeWhile_cons_of_pos ha, ih]

theorem b58Char_ne_one : ∀ d, d < 58 → d ≠ 0 → (b58Char d == '1') = false := by
  decide

theorem base58_roundtrip (l : List Nat) (hl : ∀ b ∈ l, b < 256) :
    base58_decode (base58_encode l) = some l := by
  set z := (l.takeWhile (fun b => b == 0)).length with hz
  set rest := l.dropWhile (fun b => b == 0) with hrest
  have hdecomp : List.replicate z 0 ++ rest = l := by
    have h1 : l.takeWhile (fun b => b == 0) = List.replicate z 0 := by
      apply List.eq_replicate_of_mem
      intro b hb
      have := List.mem_takeWhile_imp hb
      simpa using this
    rw [hz, ← h1, hrest]
    exact List.takeWhile_append_dropWhile (fun b => b == 0) l
  have hrest_lt : ∀ d ∈ rest, d < 256 := by
    intro d hd
    exact hl d ((List.dropWhile_sublist (fun b => b == 0)).mem hd)
  have hrest_head : ∀ h t, rest = h :: t → h ≠ 0 := by
    intro h t ht
    have := dropWhile_head_false (fun b => b == 0) l h t (hrest ▸ ht)
    simpa using this
  have hN : fromDigits 256 l = fromDigits 256 rest := by
    rw [← hdecomp, fromDigits_replicate_zero_append]
  have hds_lt : ∀ d ∈ natToDigits 58 (fromDigits 256 l), d < 58 :=
    natToDigits_digit_lt 58 (by norm_num) _
  have htail : ((natToDigits 58 (fromDigits 256 l)).map b58Char).takeWhile
      (fun c => c == '1') = [] := by
    cases hds' : natToDigits 58 (fromDigits 256 l) with
    | nil => rfl
    | cons d rest' =>
      have hd0 : d ≠ 0 := natToDigits_head_ne_zero 58 (by norm_num) _ d rest' hds'
      have hdlt : d < 58 := by
        rw [hds'] at hds_lt
        exact hds_lt d (List.mem_cons_self d rest')
      simp only [List.map_cons]
      exact List.takeWhile_cons_of_neg (by rw [b58Char_ne_one d hdlt hd0]; simp)
  simp only [base58_encode, base58_decode]
  have hstr : (String.mk (List.replicate z '1' ++
      (natToDigits 58 (fromDigits 256 l)).map b58Char)).toList
      = List.replicate z '1' ++ (natToDigits 58 (fromDigits 256 l)).map b58Char := rfl
  rw [hstr, b58Indices_append _ _ _ _ (b58Indices_replicate_one z)
    (b58Indices_map_b58Char _ hds_lt)]
  simp only [Option.map_some', Option.some.injEq]
  rw [takeWhile_replicate_append (fun c => c == '1') '1' (by simp) z
    ((natToDigits 58 (fromDigits 256 l)).map b58Char), htail]
  rw [fromDigits_replicate_zero_append, fromDigits_natToDigits 58 (by norm_num)]
  rw [hN, natToDigits_fromDigits 256 (by norm_num) rest hrest_lt hrest_head]
  simp only [List.append_nil, List.length_replicate]
  exact hdecomp

/-! ## Networks and secp256k1 secret keys (external collaborators) -/

inductive Network
  | Mainnet
  | Testnet
deriving DecidableEq, Repr

/-- Modelled from the spec: the Network Prefix Table (`Network::to_wif_prefix`
in the `network` crate, not under `src/`): Mainnet ↦ `0x80`, Testnet ↦ `0xEF`
("bidirectional map network ↔ version byte"; the byte values are pinned by the
spec's concrete vectors, whose texts start with `5` resp. `9`). -/
def Network.to_wif_byte : Network → Nat
  | .Mainnet => 0x80
  | .Testnet => 0xEF

/-- Error string of the prefix-table lookup: `UnknownNetworkPrefix` in the
spec's taxonomy (the crate's actual literal is not under `src/`). -/
def unknownNetworkMsg : String := "UnknownNetworkPrefix"

/-- Modelled from the spec: `Network::from_wif_prefix` (not under `src/`),
the reverse direction of the prefix table; fails on an unmapped byte. -/
def Network.from_wif_byte (b : Nat) : Except String Network :=
  if b = 0x80 then .ok .Mainnet
  else if b = 0xEF then .ok .Testnet
  else .error unknownNetworkMsg

/-- The secp256k1 group order `n`. -/
def secp256k1_order : Nat :=
  115792089237316195423570985008687907852837564279074904382605163141518161494337

/-- A secp256k1 secret key: an opaque 32-byte scalar (`secp256k1::SecretKey`). -/
structure SecretKey where
  bytes : List Nat
deriving DecidableEq, Repr

/-- Modelled from the spec: `secp256k1::SecretKey::from_slice` (external
curve library): accepts exactly the 32-byte big-endian values `v` with
`0 < v < n` ("invariant: `0 < scalar < curve_order`, enforced by the external
curve library at construction; construction fails otherwise"). -/
def SecretKey.from_slice (l : List Nat) : Option SecretKey :=
  if l.length = 32 ∧ (∀ b ∈ l, b < 256) ∧
      0 < fromDigits 256 l ∧ fromDigits 256 l < secp256k1_order
  then some ⟨l⟩ else none

/-- `secret_key.len()`: a `secp256k1::SecretKey` dereferences to its byte
slice, so its length is the length of `bytes` (always 32 for a key built by
`from_slice`). -/
def SecretKey.len (sk : SecretKey) : Nat := sk.bytes.length

/-! ## The Zcash private key record and WIF codec
(embedding of `src/zcash/src/private_key.rs`) -/

/-- Outcome of a Rust computation that may return `Err` or abort the
process (`panic`, from `expect`/`unwrap` or slice-index failure). -/
inductive Outcome (α : Type)
  | ok (value : α)
  | err (e : String)
  | panic (msg : String)
deriving DecidableEq, Repr

/-- `expect` message at the `from_base58` call in `from_wif`. -/
def base58PanicMsg : String := "Error decoding base58 wif"

/-- `expect` message at the `SecretKey::from_slice` call in `from_wif`. -/
def secretKeySlicePanicMsg : String := "Error creating secret key from slice"

/-- `expect` message at the `try_fill` call in `random_secret_key`. -/
def randomPanicMsg : String := "Error generating random bytes for private key"

/-- `expect` message at the `SecretKey::from_slice` call in
`random_secret_key`. -/
def secretKeyBytePanicMsg : String := "Error creating secret key from byte slice"

/-- Abort message of an out-of-bounds Rust slice index (`data[len - 4..]`
with `len < 4` underflows, `data[1..33]` with `len < 33` is out of range). -/
def slicePanicMsg : String := "slice index out of range"

/-- The `Err` value `from_wif` returns on a checksum mismatch: the literal
`"Invalid wif"`; this is the spec's `ChecksumMismatch`. -/
def invalidWifMsg : String := "Invalid wif"

structure ZcashPrivateKey where
  secret_key : SecretKey
  wif : String
  network : Network
  compressed : Bool
deriving DecidableEq, Repr

/-- `a[i..i+xs.len()].copy_from_slice(xs)` on a Rust array viewed as a list
(callers below always write within bounds). -/
def setRange (l : List Nat) (i : Nat) (xs : List Nat) : List Nat :=
  l.take i ++ xs ++ l.drop (i + xs.length)

/-- `ZcashPrivateKey::secret_key_to_wif` (lines 93–108): fill a 38-byte
buffer `wif` with prefix, scalar, optional `0x01` flag and 4 checksum bytes,
and base58-encode its first 38 (compressed) or 37 (uncompressed) bytes. -/
def ZcashPrivateKey.secret_key_to_wif
    (secret_key : SecretKey) (network : Network) (compressed : Bool) : String :=
  let wif0 := List.replicate 38 0
  let wif1 := setRange wif0 0 [network.to_wif_byte]
  let wif2 := setRange wif1 1 secret_key.bytes
  if compressed then
    let wif3 := setRange wif2 33 [0x01]
    let sum := (checksum (wif3.take 34)).take 4
    let wif4 := setRange wif3 34 sum
    base58_encode wif4
  else
    let sum := (checksum (wif2.take 33)).take 4
    let wif3 := setRange wif2 33 sum
    base58_encode (wif3.take 37)

/-- `ZcashPrivateKey::from_wif` (lines 58–75).  The `expect` on the base58
decode and on `SecretKey::from_slice`, and the slice indexing for `len < 4`
(usize underflow in `data[len - 4..]`) and `len < 33` (`data[1..33]`), abort
the process; in the struct literal the fields are evaluated in source order
(`network` with `?`-propagation before `secret_key`). -/
def ZcashPrivateKey.from_wif (wif : String) : Outcome ZcashPrivateKey :=
  match base58_decode wif with
  | none => .panic base58PanicMsg
  | some data =>
    let len := data.length
    if len < 4 then .panic slicePanicMsg
    else
      let expected := (data.drop (len - 4)).take 4
      let cksum := (checksum (data.take (len - 4))).take 4
      if expected = cksum then
        match Network.from_wif_byte (data.getD 0 0) with
        | .error e => .err e
        | .ok network =>
          if len < 33 then .panic slicePanicMsg
          else
            match SecretKey.from_slice ((data.drop 1).take 32) with
            | none => .panic secretKeySlicePanicMsg
            | some secret_key =>
              .ok { secret_key := secret_key, wif := wif,
                    network := network, compressed := len == 38 }
      else .err invalidWifMsg

/-- `ZcashPrivateKey::from_secret_key` (lines 51–55): `compressed` is set to
`secret_key.len() == 65`. -/
def ZcashPrivateKey.from_secret_key
    (secret_key : SecretKey) (network : Network) : ZcashPrivateKey :=
  let compressed := secret_key.len == 65
  { secret_key := secret_key,
    wif := ZcashPrivateKey.secret_key_to_wif secret_key network compressed,
    network := network, compressed := compressed }

/-- `ZcashPrivateKey::random_secret_key` (lines 85–90).  The OS entropy
source is made explicit: `entropy = none` models `OsRng.try_fill` returning
an error (entropy unavailable), `entropy = some random` models a successful
fill of the 32-byte buffer.  Both failure paths are `expect`s, i.e. aborts. -/
def random_secret_key (entropy : Option (List Nat)) : Outcome SecretKey :=
  match entropy with
  | none => .panic randomPanicMsg
  | some random =>
    match SecretKey.from_slice random with
    | none => .panic secretKeyBytePanicMsg
    | some sk => .ok sk

/-- `ZcashPrivateKey::build` (lines 78–82). -/
def ZcashPrivateKey.build
    (network : Network) (compressed : Bool) (entropy : Option (List Nat)) :
    Outcome ZcashPrivateKey :=
  match random_secret_key entropy with
  | .ok secret_key =>
    .ok { secret_key := secret_key,
          wif := ZcashPrivateKey.secret_key_to_wif secret_key network compressed,
          network := network, compressed := compressed }
  | .err e => .err e
  | .panic m => .panic m

/-- `ZcashPrivateKey::new` (lines 33–36, the `PrivateKey::new` impl):
`Self::build(network, true)`. -/
def ZcashPrivateKey.new (network : Network) (entropy : Option (List Nat)) :
    Outcome ZcashPrivateKey :=
  ZcashPrivateKey.build network true entropy

/-! ## The spec's wire format, stated in the spec's words (for C4) -/

/-- The spec's payload: `version_byte(1) ∥ scalar(32) ∥
[compression_flag(1)=0x01]` (written from the spec's words, §4.2/§6). -/
def specWifPayload (secret_key : SecretKey) (network : Network) (compressed : Bool) :
    List Nat :=
  network.to_wif_byte :: secret_key.bytes ++ (if compressed then [1] else [])

/-- The spec's pre-base58 raw byte string: payload followed by the first 4
bytes of its checksum (written from the spec's words, §4.2/§6). -/
def specWifRaw (secret_key : SecretKey) (network : Network) (compressed : Bool) :
    List Nat :=
  specWifPayload secret_key network compressed ++
    (checksum (specWifPayload secret_key network compressed)).take 4

theorem specWifPayload_length (sk : SecretKey) (n : Network) (c : Bool)
    (h32 : sk.bytes.length = 32) :
    (specWifPayload sk n c).length = if c then 34 else 33 := by
  cases c <;> simp [specWifPayload, h32]

theorem specWifRaw_length (sk : SecretKey) (n : Network) (c : Bool)
    (h32 : sk.bytes.length = 32) :
    (specWifRaw sk n c).length = if c then 38 else 37 := by
  have hp := specWifPayload_length sk n c h32
  cases c <;>
    simp_all [specWifRaw, List.length_take, checksum_length]

theorem secret_key_to_wif_eq_spec (sk : SecretKey) (n : Network) (c : Bool)
    (h32 : sk.bytes.length = 32) :
    ZcashPrivateKey.secret_key_to_wif sk n c = base58_encode (specWifRaw sk n c) := by
  have hw2 : setRange (setRange (List.replicate 38 0) 0 [n.to_wif_byte]) 1 sk.bytes
      = (n.to_wif_byte :: sk.bytes) ++ List.replicate 5 0 := by
    simp [setRange, h32, List.drop_replicate]
  have hlen33 : (n.to_wif_byte :: sk.bytes).length = 33 := by simp [h32]
  have htake33 : ((n.to_wif_byte :: sk.bytes) ++ List.replicate 5 0).take 33
      = n.to_wif_byte :: sk.bytes := List.take_left' hlen33
  cases c with
  | true =>
    have hw3 : setRange ((n.to_wif_byte :: sk.bytes) ++ List.replicate 5 0) 33 [1]
        = ((n.to_wif_byte :: sk.bytes) ++ [1]) ++ List.replicate 4 0 := by
      simp only [setRange, htake33, List.length_cons, List.length_nil]
      rw [show (33 + 1 : Nat) = (n.to_wif_byte :: sk.bytes).length + 1 by rw [hlen33]]
      rw [List.drop_append 1]
      simp [List.drop_replicate, List.append_assoc]
    have hlen34 : ((n.to_wif_byte :: sk.bytes) ++ [1]).length = 34 := by simp [h32]
    have htake34 : (((n.to_wif_byte :: sk.bytes) ++ [1]) ++ List.replicate 4 0).take 34
        = (n.to_wif_byte :: sk.bytes) ++ [1] := List.take_left' hlen34
    have hpay : specWifPayload sk n true = (n.to_wif_byte :: sk.bytes) ++ [1] := by
      simp [specWifPayload]
    have hsumlen : ((checksum ((n.to_wif_byte :: sk.bytes) ++ [1])).take 4).length = 4 := by
      rw [List.length_take, checksum_length]
      omega
    have hw3len : (((n.to_wif_byte :: sk.bytes) ++ [1]) ++ List.replicate 4 0).length = 38 := by
      simp [h32]
    have hw4 : setRange (((n.to_wif_byte :: sk.bytes) ++ [1]) ++ List.replicate 4 0) 34
        ((checksum ((n.to_wif_byte :: sk.bytes) ++ [1])).take 4)
        = ((n.to_wif_byte :: sk.bytes) ++ [1])
          ++ (checksum ((n.to_wif_byte :: sk.bytes) ++ [1])).take 4 := by
      simp only [setRange, htake34, hsumlen]
      rw [show (34 + 4 : Nat)
          = ((((n.to_wif_byte :: sk.bytes) ++ [1]) ++ List.replicate 4 0)).length
        by rw [hw3len]]
      rw [List.drop_length]
      simp
    simp only [ZcashPrivateKey.secret_key_to_wif, hw2, hw3, htake34, hw4, if_true,
      specWifRaw, hpay]
  | false =>
    have hpay : specWifPayload sk n false = n.to_wif_byte :: sk.bytes := by
      simp [specWifPayload]
    have hsumlen : ((checksum (n.to_wif_byte :: sk.bytes)).take 4).length = 4 := by
      rw [List.length_take, checksum_length]
      omega
    have hw3 : setRange ((n.to_wif_byte :: sk.bytes) ++ List.replicate 5 0) 33
        ((checksum (n.to_wif_byte :: sk.bytes)).take 4)
        = ((n.to_wif_byte :: sk.bytes) ++ (checksum (n.to_wif_byte :: sk.bytes)).take 4)
          ++ List.replicate 1 0 := by
      simp only [setRange, htake33, hsumlen]
      rw [show (33 + 4 : Nat) = (n.to_wif_byte :: sk.bytes).length + 4 by rw [hlen33]]
      rw [List.drop_append 4]
      simp [List.drop_replicate, List.append_assoc]
    have hlen37 : ((n.to_wif_byte :: sk.bytes)
        ++ (checksum (n.to_wif_byte :: sk.bytes)).take 4).length = 37 := by
      simp only [List.length_append, hlen33, hsumlen]
    have htake37 : (((n.to_wif_byte :: sk.bytes)
        ++ (checksum (n.to_wif_byte :: sk.bytes)).take 4) ++ List.replicate 1 0).take 37
        = (n.to_wif_byte :: sk.bytes) ++ (checksum (n.to_wif_byte :: sk.bytes)).take 4 :=
      List.take_left' hlen37
    simp only [ZcashPrivateKey.secret_key_to_wif, Bool.false_eq_true, if_false,
      hw2, htake33, hw3, htake37, specWifRaw, hpay]

/-! ## Decode-side helper lemmas -/

theorem to_wif_byte_lt (n : Network) : n.to_wif_byte < 256 := by
  cases n <;> decide

theorem from_wif_byte_to_wif_byte (n : Network) :
    Network.from_wif_byte n.to_wif_byte = Except.ok n := by
  cases n <;> rfl

theorem from_slice_bytes (sk : SecretKey) (h32 : sk.bytes.length = 32)
    (hlt : ∀ b ∈ sk.bytes, b < 256)
    (hval : 0 < fromDigits 256 sk.bytes ∧ fromDigits 256 sk.bytes < secp256k1_order) :
    SecretKey.from_slice sk.bytes = some sk := by
  simp only [SecretKey.from_slice]
  rw [if_pos ⟨h32, hlt, hval.1, hval.2⟩]

theorem specWifRaw_byte_lt (sk : SecretKey) (n : Network) (c : Bool)
    (hlt : ∀ b ∈ sk.bytes, b < 256) :
    ∀ b ∈ specWifRaw sk n c, b < 256 := by
  intro b hb
  simp only [specWifRaw, specWifPayload, List.cons_append, List.append_assoc,
    List.mem_cons, List.mem_append] at hb
  rcases hb with rfl | hb | hb | hb
  · exact to_wif_byte_lt n
  · exact hlt b hb
  · cases c with
    | true => simp at hb; omega
    | false => simp at hb
  · exact checksum_byte_lt _ b (List.take_subset _ _ hb)

theorem wif_roundtrip (sk : SecretKey) (n : Network) (c : Bool)
    (h32 : sk.bytes.length = 32) (hlt : ∀ b ∈ sk.bytes, b < 256)
    (hval : 0 < fromDigits 256 sk.bytes ∧ fromDigits 256 sk.bytes < secp256k1_order) :
    ZcashPrivateKey.from_wif (ZcashPrivateKey.secret_key_to_wif sk n c) =
      Outcome.ok ⟨sk, ZcashPrivateKey.secret_key_to_wif sk n c, n, c⟩ := by
  rw [secret_key_to_wif_eq_spec sk n c h32]
  have hbytes := specWifRaw_byte_lt sk n c hlt
  have hdec := base58_roundtrip (specWifRaw sk n c) hbytes
  have hsk := from_slice_bytes sk h32 hlt hval
  have hnb := from_wif_byte_to_wif_byte n
  cases c with
  | true =>
    have hplen : (specWifPayload sk n true).length = 34 := by
      have := specWifPayload_length sk n true h32
      simpa using this
    have hrawlen : (specWifRaw sk n true).length = 38 := by
      have := specWifRaw_length sk n true h32
      simpa using this
    have hdrop : (specWifRaw sk n true).drop 34 = (checksum (specWifPayload sk n true)).take 4 := by
      simp only [specWifRaw]
      exact List.drop_left' hplen
    have htakeP : (specWifRaw sk n true).take 34 = specWifPayload sk n true := by
      simp only [specWifRaw]
      exact List.take_left' hplen
    have htakeS : ((checksum (specWifPayload sk n true)).take 4).take 4
        = (checksum (specWifPayload sk n true)).take 4 := by
      rw [List.take_take]
      norm_num
    have hgetD : (specWifRaw sk n true).getD 0 0 = n.to_wif_byte := by
      simp [specWifRaw, specWifPayload]
    have hslice : ((specWifRaw sk n true).drop 1).take 32 = sk.bytes := by
      simp only [specWifRaw, specWifPayload, List.cons_append, List.append_assoc,
        List.drop_one, List.tail_cons]
      exact List.take_left' h32
    simp only [ZcashPrivateKey.from_wif, hdec, hrawlen, Nat.reduceSub, Nat.reduceLT,
      reduceIte, hdrop, htakeP, htakeS, eq_self_iff_true, ite_true, hgetD, hnb,
      hslice, hsk, Nat.reduceBEq]
  | false =>
    have hplen : (specWifPayload sk n false).length = 33 := by
      have := specWifPayload_length sk n false h32
      simpa using this
    have hrawlen : (specWifRaw sk n false).length = 37 := by
      have := specWifRaw_length sk n false h32
      simpa using this
    have hdrop : (specWifRaw sk n false).drop 33
        = (checksum (specWifPayload sk n false)).take 4 := by
      simp only [specWifRaw]
      exact List.drop_left' hplen
    have htakeP : (specWifRaw sk n false).take 33 = specWifPayload sk n false := by
      simp only [specWifRaw]
      exact List.take_left' hplen
    have htakeS : ((checksum (specWifPayload sk n false)).take 4).take 4
        = (checksum (specWifPayload sk n false)).take 4 := by
      rw [List.take_take]
      norm_num
    have hgetD : (specWifRaw sk n false).getD 0 0 = n.to_wif_byte := by
      simp [specWifRaw, specWifPayload]
    have hslice : ((specWifRaw sk n false).drop 1).take 32 = sk.bytes := by
      simp only [specWifRaw, specWifPayload, Bool.false_eq_true, if_false,
        List.append_nil, List.nil_append, List.cons_append, List.append_assoc,
        List.drop_one, List.tail_cons]
      exact List.take_left' h32
    simp only [ZcashPrivateKey.from_wif, hdec, hrawlen, Nat.reduceSub, Nat.reduceLT,
      reduceIte, hdrop, htakeP, htakeS, eq_self_iff_true, ite_true, hgetD, hnb,
      hslice, hsk, Nat.reduceBEq]

/-! ## Concrete data (the spec's test vectors and crafted raw strings) -/

/-- Scalar `0C28FCA386C7A227600B2FE50B7CAE11EC86D3BF1FBE471BE89827E19D72AA1D`. -/
def mainnetScalar : List Nat :=
  [12, 40, 252, 163, 134, 199, 162, 39, 96, 11, 47, 229, 11, 124, 174, 17,
   236, 134, 211, 191, 31, 190, 71, 27, 232, 152, 39, 225, 157, 114, 170, 29]

/-- Scalar `37EE08B51CB5932276DB785C8E23CC0FDC99A2923C7ECA43A6D3FD26D94EBD44`. -/
def testnetScalar : List Nat :=
  [55, 238, 8, 181, 28, 181, 147, 34, 118, 219, 120, 92, 142, 35, 204, 15,
   220, 153, 162, 146, 60, 126, 202, 67, 166, 211, 253, 38, 217, 78, 189, 68]

def mainnetWifText : String := "5HueCGU8rMjxEXxiPuD5BDku4MkFqeZyd4dZ1jvhTVqvbTLvyTJ"

def testnetWifText : String := "921YpFFoB1UN7tud1vne5hTrijX423MexQxYn6dmeHB25xT8c2s"

/-- The 37-byte raw string behind `mainnetWifText`:
`0x80 ∥ scalar ∥ checksum4`. -/
def mainnetRaw : List Nat := 128 :: mainnetScalar ++ [80, 122, 91, 141]

/-- A 39-byte raw string with a valid trailing checksum over its first 35
bytes: `0x80 ∥ scalar ∥ 0xAB 0xCD ∥ checksum4`. -/
def len39Raw : List Nat := 128 :: mainnetScalar ++ [171, 205, 75, 23, 75, 69]

/-- Base58 text of `len39Raw`. -/
def len39Text : String := "2Sc7S1wac65gQ8sGKeJabXpqNCpxK7masshEtBDGDWT8BoMM8gugg4"

/-- A 38-byte raw string with a valid checksum whose byte 33 (the
compression-flag position) is `0x00`, not `0x01`:
`0x80 ∥ scalar ∥ 0x00 ∥ checksum4`. -/
def badFlagRaw : List Nat := 128 :: mainnetScalar ++ [0, 191, 164, 54, 137]

/-- Base58 text of `badFlagRaw`. -/
def badFlagText : String := "KwdMAjGmerYanjeui5SHS7JkmpZvVipYvB2LJGU1ZxJwYvHFRKf6"

/-- A text containing `0`, a character outside the base58 alphabet. -/
def zeroCharText : String := "0"

/-! ## Claims -/

theorem b58Indices_eq_none (l : List Char) (c : Char) (hc : c ∈ l)
    (hbad : b58Index c = none) : b58Indices l = none := by
  induction l with
  | nil => cases hc
  | cons a as ih =>
    simp only [b58Indices]
    cases ha : b58Index a with
    | none => rfl
    | some i =>
      cases hrest : b58Indices as with
      | none => rfl
      | some is =>
        rcases List.mem_cons.mp hc with rfl | hmem
        · rw [ha] at hbad
          simp at hbad
        · rw [ih hmem] at hrest
          simp at hrest

/-- C2: the claim says every malformed input is reported as a typed error,
never by abrupt termination; the code instead aborts: for every text
containing a character outside the base58 alphabet, `from_wif` panics at the
`expect` on `from_base58` instead of returning an error. -/
theorem claim_C2_decode_panics_on_bad_base58 (s : String) (c : Char)
    (hc : c ∈ s.toList) (hbad : b58Index c = none) :
    ZcashPrivateKey.from_wif s = Outcome.panic base58PanicMsg := by
  simp only [ZcashPrivateKey.from_wif, base58_decode,
    b58Indices_eq_none s.toList c hc hbad, Option.map_none']

theorem claim_C2_witness :
    '0' ∈ zeroCharText.toList ∧ b58Index '0' = none ∧
    ZcashPrivateKey.from_wif zeroCharText = Outcome.panic base58PanicMsg :=
  ⟨by decide, by decide,
    claim_C2_decode_panics_on_bad_base58 zeroCharText '0' (by decide) (by decide)⟩

set_option maxRecDepth 10000 in
/-- C3: the claim says a raw length outside {37, 38} fails with
`InvalidPayloadLength`; the code has no length check at all: the 39-byte raw
string `len39Raw` (valid checksum, valid prefix, valid scalar bytes) is
accepted by `from_wif` with `compressed = false` instead of being
rejected. -/
theorem claim_C3_accepts_length_39 :
    base58_decode len39Text = some len39Raw ∧ len39Raw.length = 39 ∧
    ZcashPrivateKey.from_wif len39Text =
      Outcome.ok ⟨⟨mainnetScalar⟩, len39Text, Network.Mainnet, false⟩ :=
  ⟨by decide, by decide, by decide⟩

/-- C9: the claim says an unavailable OS entropy source is reported as a
`RandomnessUnavailable` error; the code instead aborts: when `try_fill`
fails, `random_secret_key` (and hence `new`) panics at the `expect`. -/
theorem claim_C9_entropy_failure_panics :
    random_secret_key none = Outcome.panic randomPanicMsg ∧
    ZcashPrivateKey.new Network.Mainnet none = Outcome.panic randomPanicMsg :=
  ⟨rfl, rfl⟩

/-- C10: `from_secret_key` sets `compressed = (secret_key.len() == 65)`;
a secp256k1 secret key is 32 bytes, so the record is always uncompressed
and its `wif` is the uncompressed encoding. -/
theorem claim_C10_from_secret_key_uncompressed (sk : SecretKey) (n : Network)
    (h32 : sk.bytes.length = 32) :
    (ZcashPrivateKey.from_secret_key sk n).compressed = false ∧
    (ZcashPrivateKey.from_secret_key sk n).wif
      = ZcashPrivateKey.secret_key_to_wif sk n false := by
  constructor <;>
    simp [ZcashPrivateKey.from_secret_key, SecretKey.len, h32]

theorem claim_C10_witness :
    (ZcashPrivateKey.from_secret_key ⟨mainnetScalar⟩ Network.Mainnet).compressed = false ∧
    (ZcashPrivateKey.from_secret_key ⟨mainnetScalar⟩ Network.Mainnet).wif
      = ZcashPrivateKey.secret_key_to_wif ⟨mainnetScalar⟩ Network.Mainnet false :=
  claim_C10_from_secret_key_uncompressed ⟨mainnetScalar⟩ Network.Mainnet (by decide)

/-- C1: for every valid curve scalar (32 bytes, value strictly between 0 and
the curve order), every supported network and both compressed flags, decoding
the WIF text produced by encoding succeeds and returns exactly the same
scalar, network and compressed flag, and stores the text itself in `wif`. -/
theorem claim_C1_encode_decode_roundtrip (sk : SecretKey) (n : Network) (c : Bool)
    (h32 : sk.bytes.length = 32) (hlt : ∀ b ∈ sk.bytes, b < 256)
    (hval : 0 < fromDigits 256 sk.bytes ∧ fromDigits 256 sk.bytes < secp256k1_order) :
    ZcashPrivateKey.from_wif (ZcashPrivateKey.secret_key_to_wif sk n c) =
      Outcome.ok ⟨sk, ZcashPrivateKey.secret_key_to_wif sk n c, n, c⟩ :=
  wif_roundtrip sk n c h32 hlt hval

set_option maxRecDepth 10000 in
theorem claim_C1_witness :
    ZcashPrivateKey.from_wif
        (ZcashPrivateKey.secret_key_to_wif ⟨mainnetScalar⟩ Network.Mainnet true) =
      Outcome.ok ⟨⟨mainnetScalar⟩,
        ZcashPrivateKey.secret_key_to_wif ⟨mainnetScalar⟩ Network.Mainnet true,
        Network.Mainnet, true⟩ :=
  claim_C1_encode_decode_roundtrip ⟨mainnetScalar⟩ Network.Mainnet true
    (by decide) (by decide) (by decide)

/-- C4: the WIF text produced by encoding is exactly the base58 encoding of
`version_byte(1) ∥ scalar(32) ∥ [0x01 if compressed] ∥ checksum4`, and the
pre-base58 raw byte string has length exactly 38 when compressed and 37 when
uncompressed. -/
theorem claim_C4_wire_format (sk : SecretKey) (n : Network) (c : Bool)
    (h32 : sk.bytes.length = 32) :
    ZcashPrivateKey.secret_key_to_wif sk n c = base58_encode (specWifRaw sk n c) ∧
    (specWifRaw sk n c).length = (if c then 38 else 37) :=
  ⟨secret_key_to_wif_eq_spec sk n c h32, specWifRaw_length sk n c h32⟩

theorem claim_C4_witness :
    ZcashPrivateKey.secret_key_to_wif ⟨mainnetScalar⟩ Network.Mainnet true
      = base58_encode (specWifRaw ⟨mainnetScalar⟩ Network.Mainnet true) ∧
    (specWifRaw ⟨mainnetScalar⟩ Network.Mainnet true).length = (if true then 38 else 37) :=
  claim_C4_wire_format ⟨mainnetScalar⟩ Network.Mainnet true (by decide)

theorem from_wif_byte_error_msg (b : Nat) (e : String)
    (h : Network.from_wif_byte b = Except.error e) : e = unknownNetworkMsg := by
  simp only [Network.from_wif_byte] at h
  split at h
  · exact absurd h (by simp)
  · split at h
    · exact absurd h (by simp)
    · exact (Except.error.inj h).symm

/-- C5: for every text whose base58 decoding has admissible length (37 or
38), decode fails with the checksum-mismatch error (the code's
`Err("Invalid wif")`) exactly when the last 4 raw bytes differ from the
first 4 bytes of `checksum(raw[0 .. len-4])`; when they agree, decoding
proceeds past the checksum check without that error. -/
theorem claim_C5_checksum_mismatch_iff (text : String) (data : List Nat)
    (hdec : base58_decode text = some data)
    (hlen : data.length = 37 ∨ data.length = 38) :
    (ZcashPrivateKey.from_wif text = Outcome.err invalidWifMsg ↔
      (data.drop (data.length - 4)).take 4
        ≠ (checksum (data.take (data.length - 4))).take 4) := by
  have h4 : ¬ (data.length < 4) := by omega
  simp only [ZcashPrivateKey.from_wif, hdec]
  rw [if_neg h4]
  by_cases hck : (data.drop (data.length - 4)).take 4
      = (checksum (data.take (data.length - 4))).take 4
  · rw [if_pos hck]
    simp only [hck, ne_eq, not_true_eq_false, iff_false]
    intro hcontra
    split at hcontra
    · rename_i e heq
      have he := from_wif_byte_error_msg _ _ heq
      subst he
      exact absurd (Outcome.err.inj hcontra) (by decide)
    · split at hcontra
      · exact Outcome.noConfusion hcontra
      · split at hcontra
        · exact Outcome.noConfusion hcontra
        · exact Outcome.noConfusion hcontra
  · rw [if_neg hck]
    simp [hck]

set_option maxRecDepth 10000 in
theorem claim_C5_witness :
    (ZcashPrivateKey.from_wif mainnetWifText = Outcome.err invalidWifMsg ↔
      (mainnetRaw.drop (mainnetRaw.length - 4)).take 4
        ≠ (checksum (mainnetRaw.take (mainnetRaw.length - 4))).take 4) :=
  claim_C5_checksum_mismatch_iff mainnetWifText mainnetRaw (by decide) (by decide)

/-- C6: whenever decode succeeds, the returned compressed flag equals
`(len(raw) == 38)`: it is inferred purely from the raw length and the flag
byte's value is never examined (the witness exhibits an accepted 38-byte raw
string whose byte 33 is `0x00`). -/
theorem claim_C6_compressed_iff_len38 (text : String) (data : List Nat)
    (pk : ZcashPrivateKey) (hdec : base58_decode text = some data)
    (hok : ZcashPrivateKey.from_wif text = Outcome.ok pk) :
    pk.compressed = (data.length == 38) := by
  simp only [ZcashPrivateKey.from_wif, hdec] at hok
  split at hok
  · simp at hok
  · split at hok
    · split at hok
      · simp at hok
      · split at hok
        · simp at hok
        · split at hok
          · simp at hok
          · rw [← Outcome.ok.inj hok]
    · simp at hok

set_option maxRecDepth 10000 in
theorem claim_C6_witness :
    base58_decode badFlagText = some badFlagRaw ∧ badFlagRaw.getD 33 0 = 0 ∧
    ZcashPrivateKey.from_wif badFlagText =
      Outcome.ok ⟨⟨mainnetScalar⟩, badFlagText, Network.Mainnet, true⟩ ∧
    (⟨⟨mainnetScalar⟩, badFlagText, Network.Mainnet, true⟩ : ZcashPrivateKey).compressed
      = (badFlagRaw.length == 38) :=
  ⟨by decide, by decide, by decide,
    claim_C6_compressed_iff_len38 badFlagText badFlagRaw
      ⟨⟨mainnetScalar⟩, badFlagText, Network.Mainnet, true⟩ (by decide) (by decide)⟩

set_option maxRecDepth 10000 in
/-- C7: the spec's concrete vectors: encoding the mainnet scalar
uncompressed yields `5HueCGU8…`, encoding the testnet scalar uncompressed
yields `921YpFFo…`, and decoding each text returns the corresponding
scalar. -/
theorem claim_C7_test_vectors :
    ZcashPrivateKey.secret_key_to_wif ⟨mainnetScalar⟩ Network.Mainnet false
      = mainnetWifText ∧
    ZcashPrivateKey.secret_key_to_wif ⟨testnetScalar⟩ Network.Testnet false
      = testnetWifText ∧
    ZcashPrivateKey.from_wif mainnetWifText =
      Outcome.ok ⟨⟨mainnetScalar⟩, mainnetWifText, Network.Mainnet, false⟩ ∧
    ZcashPrivateKey.from_wif testnetWifText =
      Outcome.ok ⟨⟨testnetScalar⟩, testnetWifText, Network.Testnet, false⟩ :=
  ⟨by decide, by decide, by decide, by decide⟩

/-- C8: for every network, the generation path `new` builds with
`compressed = true`: whenever it returns a record, that record's compressed
flag is true and its `wif` is the compressed encoding of its secret key. -/
theorem claim_C8_generated_keys_compressed (n : Network) (entropy : Option (List Nat))
    (pk : ZcashPrivateKey) (hok : ZcashPrivateKey.new n entropy = Outcome.ok pk) :
    pk.compressed = true ∧
    pk.wif = ZcashPrivateKey.secret_key_to_wif pk.secret_key n true := by
  simp only [ZcashPrivateKey.new, ZcashPrivateKey.build] at hok
  split at hok
  · rw [← Outcome.ok.inj hok]
    exact ⟨rfl, rfl⟩
  · simp at hok
  · simp at hok

/-- The record `new` produces from the entropy bytes `mainnetScalar`. -/
def c8Record : ZcashPrivateKey :=
  ⟨⟨mainnetScalar⟩,
   ZcashPrivateKey.secret_key_to_wif ⟨mainnetScalar⟩ Network.Mainnet true,
   Network.Mainnet, true⟩

set_option maxRecDepth 10000 in
theorem claim_C8_witness :
    ZcashPrivateKey.new Network.Mainnet (some mainnetScalar) = Outcome.ok c8Record ∧
    c8Record.compressed = true ∧
    c8Record.wif = ZcashPrivateKey.secret_key_to_wif c8Record.secret_key
      Network.Mainnet true :=
  ⟨by decide,
    claim_C8_generated_keys_compressed Network.Mainnet (some mainnetScalar)
      c8Record (by decide)⟩

end Wagyu
